import Mathlib

/-!
Verification development for the RunKV storage core.

Shallow embedding of:
- `src/storage/src/lsm_tree/components/key.rs` (`full_key`)
- `src/storage/src/raft_log_store/mem.rs` (`MemStates` / `MemState` operations)
- `src/storage/src/raft_log_store/store.rs` (`RaftLogStore::entry` cache keying)
- `src/storage/src/lsm_tree/iterator/memtable_iterator.rs` (`MemtableIterator`)
- `src/storage/src/lsm_tree/components/sstable.rs` (`SstableBuilder`)

Bytes are modelled as `List Nat` (each element a byte value), u64 values as `Nat`
with explicit `% 2 ^ 64` wrapping where the source can overflow.
-/

namespace RunKV

/-- Strict lexicographic order on byte strings (the order used when Rust compares
`&[u8]` / `Bytes` values with `<`). -/
def lexLt : List Nat → List Nat → Bool
  | _, [] => false
  | [], _ :: _ => true
  | a :: as, b :: bs => decide (a < b) || (a == b && lexLt as bs)

/-- Little-endian encoding of the low 8 bytes of a natural number
(models `put_u64_le`). -/
def leBytes8 (n : Nat) : List Nat :=
  [n % 256, n / 256 % 256, n / 256 ^ 2 % 256, n / 256 ^ 3 % 256,
   n / 256 ^ 4 % 256, n / 256 ^ 5 % 256, n / 256 ^ 6 % 256, n / 256 ^ 7 % 256]

/-- Bitwise complement of a `u64` timestamp (`!timestamp` in the source). -/
def invTs (ts : Nat) : Nat := 2 ^ 64 - 1 - ts

/-- Embedding of `full_key` (key.rs line 13): the user key followed by the
little-endian bytes of the complemented timestamp. -/
def full_key (userKey : List Nat) (timestamp : Nat) : List Nat :=
  userKey ++ leBytes8 (invTs timestamp)

/-- Embedding of `EntryIndex` (mem.rs lines 12-23). -/
structure EntryIndex where
  term : Nat
  ctx : List Nat
  file_id : Nat
  block_offset : Nat
  block_len : Nat
  offset : Nat
  len : Nat
deriving DecidableEq

/-- Embedding of `MemState` (mem.rs lines 25-30).  The `kvs` BTreeMap is modelled
as an association list; only frame conditions about it are needed. -/
structure MemState where
  first_index : Nat
  mask_index : Nat
  indices : List EntryIndex
  kvs : List (List Nat × List Nat)
deriving DecidableEq

/-- Embedding of `RaftLogStoreError` variants used by `MemStates`. -/
inductive RaftLogStoreError where
  | groupAlreadyExists (group : Nat)
  | groupNotExists (group : Nat)
  | raftLogGap (start stop : Nat)
deriving DecidableEq

instance {ε α : Type} [DecidableEq ε] [DecidableEq α] : DecidableEq (Except ε α) := fun a b =>
  match a, b with
  | .error e1, .error e2 =>
    if h : e1 = e2 then .isTrue (by rw [h]) else .isFalse (by simp [h])
  | .error _, .ok _ => .isFalse (by simp)
  | .ok _, .error _ => .isFalse (by simp)
  | .ok v1, .ok v2 =>
    if h : v1 = v2 then .isTrue (by rw [h]) else .isFalse (by simp [h])

/-- Value of `u64::MAX`. -/
def u64MAX : Nat := 2 ^ 64 - 1

/-- The overlap-update choice of `MemStates::append` (mem.rs lines 227-237):
the stored index survives only if its term is strictly greater than the
incoming one. -/
def chooseIndex (stored incoming : EntryIndex) : EntryIndex :=
  if incoming.term < stored.term then stored else incoming

/-- One iteration of the overlap-update loop: conditionally overwrite position `i`.
Out-of-bounds positions are left unchanged (the source would panic there; all
reachable calls stay in bounds, see `overwriteLoop_eq`). -/
def updateAt (l : List EntryIndex) (i : Nat) (e : EntryIndex) : List EntryIndex :=
  match l.get? i with
  | some stored => if e.term < stored.term then l else l.set i e
  | none => l

/-- Embedding of the `for (indices_i, state_indices_i) in ...` loop of
`MemStates::append` (mem.rs lines 227-237). -/
def overwriteLoop (st : List EntryIndex) (start : Nat) : List EntryIndex → List EntryIndex
  | [] => st
  | e :: rest => overwriteLoop (updateAt st start e) (start + 1) rest

/-- Embedding of the tail of `MemStates::append` (mem.rs lines 218-239): append the
part of the batch past `state_next_index` verbatim, then run the overlap-update
loop over what the `drain` left behind.  `snx` is the local variable
`state_next_index`; the two branches inline the `drain`'s effect on `indices`
(`drop`: the drained tail, `take`: the remainder). -/
def appendRest (s : MemState) (snx firstIndex : Nat) (batch : List EntryIndex) : MemState :=
  if snx - firstIndex < batch.length then
    { s with indices :=
        (overwriteLoop (s.indices ++ batch.drop (snx - firstIndex))
          (firstIndex - s.first_index) (batch.take (snx - firstIndex))) }
  else
    { s with indices := overwriteLoop s.indices (firstIndex - s.first_index) batch }

/-- Embedding of `MemStates::append` (mem.rs lines 179-240) for a group that exists;
the `GroupNotExists` lookup failure is modelled at the map level (`statesAppend`).
Subtractions are exact: on every path reaching them the minuend dominates, as in
the `u64`/`usize` source. -/
def memAppend (s0 : MemState) (firstIndex0 : Nat) (batch : List EntryIndex) :
    Except RaftLogStoreError MemState :=
  let snx0 := s0.first_index + s0.indices.length
  if snx0 ≠ 0 ∧ snx0 < firstIndex0 then
    .error (.raftLogGap snx0 firstIndex0)
  else
    -- `if state_next_index == 0 { state.first_index = first_index; ... }`
    let s := if snx0 = 0 then { s0 with first_index := firstIndex0 } else s0
    let snx := if snx0 = 0 then firstIndex0 else snx0
    -- `if first_index < state.first_index { indices.drain(..); ... }`
    if firstIndex0 < s.first_index then
      let b := batch.drop (s.first_index - firstIndex0)
      if b.isEmpty then .ok s else .ok (appendRest s snx s.first_index b)
    else
      .ok (appendRest s snx firstIndex0 batch)

/-- Embedding of `MemStates::compact` (mem.rs lines 276-309) for a group that exists. -/
def memCompact (s : MemState) (index : Nat) : MemState :=
  if index ≤ s.first_index then s
  else if s.first_index + s.indices.length < index then
    { s with indices := [], first_index := 0 }
  else
    { s with indices := s.indices.drop (index - s.first_index), first_index := index }

/-- Embedding of `MemStates::mask` (mem.rs lines 315-334) for a group that exists. -/
def memMask (s : MemState) (index : Nat) : MemState :=
  if s.first_index + s.indices.length < index then
    { s with indices := [], first_index := 0, mask_index := 0 }
  else
    { s with mask_index := index }

/-- Embedding of `MemStates::entries` (mem.rs lines 384-413) for a group that
exists.  The source computes `start + max_len` in `usize`; the model wraps the
sum at `2 ^ 64` as release-mode Rust does (a debug build panics on the same
overflow).  The `Option` result marks the subsequent slice `&indices[start..end]`:
`none` models the slice panicking because `end < start`. -/
def memEntries (s : MemState) (index maxLen : Nat) :
    Except RaftLogStoreError (Option (List EntryIndex)) :=
  if index < s.first_index then
    .error (.raftLogGap index s.first_index)
  else if s.first_index + s.indices.length ≤ index then
    .error (.raftLogGap (s.first_index + s.indices.length) index)
  else
    let start := index - s.first_index
    let stop := min ((start + maxLen) % 2 ^ 64) s.indices.length
    if start ≤ stop then .ok (some ((s.indices.drop start).take (stop - start)))
    else .ok none

/-- The group map of `MemStates` (mem.rs line 34), as a function from group id to
optional per-group state. -/
def GroupMap := Nat → Option MemState

/-- Map update. -/
def GroupMap.insert (m : GroupMap) (g : Nat) (s : MemState) : GroupMap :=
  fun g' => if g' = g then some s else m g'

/-- Embedding of `MemStates::add_group` (mem.rs lines 46-60). -/
def addGroup (m : GroupMap) (g : Nat) : Except RaftLogStoreError GroupMap :=
  match m g with
  | some _ => .error (.groupAlreadyExists g)
  | none => .ok (m.insert g ⟨0, 0, [], []⟩)

/-- Embedding of `MemStates::remove_group` (mem.rs lines 81-93): the group entry is
kept, with `first_index` set to `u64::MAX` and `indices`/`kvs` cleared
(`mask_index` is left as it was). -/
def removeGroup (m : GroupMap) (g : Nat) : Except RaftLogStoreError GroupMap :=
  match m g with
  | some s => .ok (m.insert g { s with first_index := u64MAX, indices := [], kvs := [] })
  | none => .error (.groupNotExists g)

/-- Embedding of `MemStates::term` (mem.rs lines 95-109). -/
def statesTerm (m : GroupMap) (g : Nat) (index : Nat) : Except RaftLogStoreError (Option Nat) :=
  match m g with
  | none => .error (.groupNotExists g)
  | some s =>
    if index < s.first_index ∨ s.first_index + s.indices.length ≤ index then .ok none
    else .ok ((s.indices.get? (index - s.first_index)).map EntryIndex.term)

/-- Embedding of `MemStates::ctx` (mem.rs lines 111-125). -/
def statesCtx (m : GroupMap) (g : Nat) (index : Nat) :
    Except RaftLogStoreError (Option (List Nat)) :=
  match m g with
  | none => .error (.groupNotExists g)
  | some s =>
    if index < s.first_index ∨ s.first_index + s.indices.length ≤ index then .ok none
    else .ok ((s.indices.get? (index - s.first_index)).map EntryIndex.ctx)

/-- Counterpart of the test helper `gen_indices` (mem.rs lines 538-551). -/
def genIndices (term len : Nat) : List EntryIndex :=
  List.replicate len ⟨term, [], 1, 0, 0, 0, 0⟩

/-- A freshly added group's state (mem.rs lines 51-56). -/
def memStateEmpty : MemState := ⟨0, 0, [], []⟩


/-- State after `append(1, gen_indices(1, 100))` on a fresh group (scenario S5). -/
def s5State : MemState := ⟨1, 0, genIndices 1 100, []⟩

/-- The failing state for the `entries` overflow: `first_index = 1` with two
stored indices. -/
def c8State : MemState := ⟨1, 0, genIndices 1 2, []⟩

/-- A one-group map used by the `removeGroup_keeps_group` witness. -/
def rmMap : GroupMap := fun g => if g = 1 then some s5State else none

/-- Statement of C5 in the claim's words: drop the leading
`state.first_index - first_index` incoming indices as outdated; merge the overlap
region position by position, the incoming index winning exactly when its term is
at least the stored one (`chooseIndex`); append the indices past
`state_next_index` verbatim. -/
def memAppendSpec (s : MemState) (fi : Nat) (batch : List EntryIndex) : MemState :=
  let snx := s.first_index + s.indices.length
  let first' := if snx = 0 then fi else s.first_index
  let batch' := batch.drop (first' - fi)
  let ovStart := max fi first' - first'
  let ov := s.indices.drop ovStart
  { s with
    first_index := first',
    indices := s.indices.take ovStart
      ++ List.zipWith chooseIndex ov batch'
      ++ ov.drop batch'.length
      ++ batch'.drop ov.length }

/-- The cache key `RaftLogStore::entry` passes to `get_or_insert_with`
(store.rs line 217): the pair `(index.file_id, index.offset)` — note the second
component is `offset`, the entry's position inside the decompressed data
segment, not `block_offset`. -/
def entryCacheKey (e : EntryIndex) : Nat × Nat := (e.file_id, e.offset)

/-- Modelled from the spec: the Raft `BlockCache` (block_cache.rs is not under
src/).  Per §4.5 it is a map from the key pair passed to `get_or_insert_with`
to the cached decoded block; a hit returns the cached block unchanged, a miss
runs the fetch and stores its result under the key.  (Single-flight dedup and
eviction do not matter for the claim and are not modelled.) -/
def BlockCacheModel : Type := List ((Nat × Nat) × List Nat)

/-- Modelled from the spec: `get_or_insert_with` of the block cache (§4.5). -/
def cacheGetOrInsert (c : BlockCacheModel) (key : Nat × Nat) (fetch : List Nat) :
    List Nat × BlockCacheModel :=
  match List.lookup key c with
  | some block => (block, c)
  | none => (fetch, (key, fetch) :: c)

/-- Embedding of `RaftLogStore::entry` (store.rs lines 198-221).  `log` models
`log.read` composed with `RaftLogBatch::extract_data_segment` (log.rs/entry.rs
are not under src/): it maps `(file_id, block_offset, block_len)` to the
decompressed data segment.  The cache key is the one the source passes:
`(index.file_id, index.offset)`. -/
def storeEntry (log : Nat → Nat → Nat → List Nat) (c : BlockCacheModel) (e : EntryIndex) :
    List Nat × BlockCacheModel :=
  let p := cacheGetOrInsert c (entryCacheKey e) (log e.file_id e.block_offset e.block_len)
  (((p.1).drop e.offset).take e.len, p.2)

/-- The log contents for the C1 counterexample: file 1 holds a block of 1-bytes at
block offset 0 and a block of 2-bytes at block offset 512. -/
def c1Log : Nat → Nat → Nat → List Nat :=
  fun _ blockOffset _ => if blockOffset = 0 then List.replicate 32 1 else List.replicate 32 2

/-- First C1 entry: block at offset 0, payload at `[16, 20)`. -/
def c1E1 : EntryIndex := ⟨1, [], 1, 0, 32, 16, 4⟩

/-- Second C1 entry: block at offset 512, payload at `[16, 20)`. -/
def c1E2 : EntryIndex := ⟨1, [], 1, 512, 32, 16, 4⟩

/-- Third C1 entry: same block as `c1E1`, payload at `[20, 24)`. -/
def c1E3 : EntryIndex := ⟨1, [], 1, 0, 32, 20, 4⟩

/-- Little-endian `u16` encoding (`put_u16_le`). -/
def u16le (n : Nat) : List Nat := [n % 256, n / 256 % 256]

/-- Little-endian `u32` encoding (`put_u32_le`). -/
def u32le (n : Nat) : List Nat :=
  [n % 256, n / 256 % 256, n / 256 ^ 2 % 256, n / 256 ^ 3 % 256]

/-- One bit step of the reflected CRC-32 (polynomial 0xEDB88320). -/
def crc32Step (crc : Nat) : Nat :=
  if crc % 2 = 1 then Nat.xor (crc / 2) 0xEDB88320 else crc / 2

/-- Modelled from the spec: `crc32sum` (utils are not under src/), as the standard
IEEE reflected CRC-32.  Its exact value never matters for the claims below. -/
def crc32 (data : List Nat) : Nat :=
  Nat.xor (data.foldl (fun crc b => crc32Step^[8] (Nat.xor crc (b % 256))) 0xFFFFFFFF) 0xFFFFFFFF

/-- Embedding of `BlockMeta` (sstable.rs lines 13-19). -/
structure BlockMeta where
  offset : Nat
  len : Nat
  first_key : List Nat
  last_key : List Nat
deriving DecidableEq

/-- Modelled from the spec: `BlockBuilder` state (block.rs is not under src/),
per §3/§4.2: an entry buffer with restart points every 16 entries and
prefix-compressed keys in between. -/
structure BlockBuilderModel where
  buf : List Nat
  restartPoints : List Nat
  lastKey : List Nat
  entryCount : Nat

/-- The default restart interval (spec §4.2). -/
def blockRestartInterval : Nat := 16

/-- Length of the common prefix of two byte strings. -/
def commonPrefixLen : List Nat → List Nat → Nat
  | a :: as, b :: bs => if a = b then 1 + commonPrefixLen as bs else 0
  | _, _ => 0

/-- Modelled from the spec: `BlockBuilder::add` (§3 block layout):
`| key_diff_len:u16 | shared_prefix_len:u16 | value_len:u32 | key_suffix | value |`,
with a restart point (no prefix compression) every `blockRestartInterval`
entries. -/
def blockAdd (bb : BlockBuilderModel) (key value : List Nat) : BlockBuilderModel :=
  let isRestart := bb.entryCount % blockRestartInterval = 0
  let shared := if isRestart then 0 else commonPrefixLen bb.lastKey key
  let diff := key.drop shared
  { buf := bb.buf ++ u16le diff.length ++ u16le shared ++ u32le value.length ++ diff ++ value,
    restartPoints := if isRestart then bb.restartPoints ++ [bb.buf.length] else bb.restartPoints,
    lastKey := key,
    entryCount := bb.entryCount + 1 }

/-- Modelled from the spec: `BlockBuilder::approximate_len`, the entry-section
size.  (Spec scenario S1 pins this: with it, `block_capacity = 32` yields two
2-entry blocks for the four scenario keys.) -/
def blockApproximateLen (bb : BlockBuilderModel) : Nat := bb.buf.length

/-- Modelled from the spec: `BlockBuilder::build` (§3 block layout, compression
`None`): entries, restart offsets, restart count, compression tag 0, CRC-32. -/
def blockBuild (bb : BlockBuilderModel) : List Nat :=
  let body := bb.buf ++ (bb.restartPoints.map u32le).flatten
    ++ u32le bb.restartPoints.length ++ [0]
  body ++ u32le (crc32 body)

/-- Embedding of the `SstableBuilder` state (sstable.rs lines 133-146). -/
structure SstBuilder where
  buf : List Nat
  block_builder : Option BlockBuilderModel
  block_metas : List BlockMeta
  user_key_hashes : List Nat
  last_full_key : List Nat

/-- Apply a function to the last element of a list (`last_mut`). -/
def updateLast {α : Type} (f : α → α) : List α → List α
  | [] => []
  | [x] => [f x]
  | x :: xs => x :: updateLast f xs

/-- Embedding of `SstableBuilder::build_block` (sstable.rs lines 230-241). -/
def sstBuildBlock (b : SstBuilder) : SstBuilder :=
  match b.block_builder with
  | none => b
  | some bb =>
    let buf2 := b.buf ++ blockBuild bb
    { b with
      buf := buf2,
      block_builder := none,
      block_metas :=
        updateLast (fun m => { m with last_key := b.last_full_key, len := buf2.length - m.offset })
          b.block_metas,
      last_full_key := [] }

/-- Embedding of `SstableBuilder::add` (sstable.rs lines 161-192).  `hashFn`
stands for `farmhash::fingerprint32` (the crate is external); its values land
only in `user_key_hashes`, which feeds nothing but the bloom filter. -/
def sstAdd (blockCapacity : Nat) (hashFn : List Nat → Nat) (b : SstBuilder)
    (userKey : List Nat) (timestamp : Nat) (value : List Nat) : SstBuilder :=
  let b :=
    if b.block_builder.isNone then
      { b with
        block_builder := some ⟨[], [], [], 0⟩,
        block_metas := b.block_metas ++ [⟨b.buf.length, 0, [], []⟩] }
    else b
  match b.block_builder with
  | none => b
  | some bb =>
    let fk := full_key userKey timestamp
    let bb2 := blockAdd bb fk value
    let b2 := { b with
      block_builder := some bb2,
      user_key_hashes := b.user_key_hashes ++ [hashFn userKey],
      block_metas :=
        if b.last_full_key.isEmpty
        then updateLast (fun m => { m with first_key := fk }) b.block_metas
        else b.block_metas,
      last_full_key := fk }
    if blockCapacity ≤ blockApproximateLen bb2 then sstBuildBlock b2 else b2

/-- Embedding of `SstableBuilder::build` (sstable.rs lines 206-224): seal the last
block, append a trailing `u32` block count to the data, and build the bloom
filter when `bloom_false_positive > 0.0` (`bloomPositive`); `bloomFn` stands for
`Bloom::build_from_key_hashes` together with `bloom_bits_per_key`.  Returns
`((block_metas, bloom_filter), data)`. -/
def sstBuild (bloomPositive : Bool) (bloomFn : List Nat → List Nat) (b : SstBuilder) :
    (List BlockMeta × List Nat) × List Nat :=
  let b := sstBuildBlock b
  let data := b.buf ++ u32le b.block_metas.length
  ((b.block_metas, if bloomPositive then bloomFn b.user_key_hashes else []), data)

/-- A fresh `SstableBuilder` (sstable.rs lines 148-158). -/
def sstEmpty : SstBuilder := ⟨[], none, [], [], []⟩


/-- One memtable row: user key, timestamp and value slot (`none` = tombstone,
matching `value(..).is_none()` on the encoded slot). -/
structure MtEntry where
  uk : List Nat
  ts : Nat
  v : Option (List Nat)
deriving DecidableEq

/-- Modelled from the spec: the skiplist order under `FullKeyComparator`
(the comparator's source is not under src/).  Spec §3/§4.7: the skiplist is
keyed by `(user_key, inverted_timestamp)`, i.e. user key ascending and, within a
user key, timestamp descending. -/
def entryLtB (a b : MtEntry) : Bool :=
  lexLt a.uk b.uk || (a.uk == b.uk && decide (b.ts < a.ts))

/-- Embedding of `MemtableIterator::next_inner` (memtable_iterator.rs lines
31-53), with the skiplist cursor's remaining suffix as the list argument.
State: `seekKey` is the `key: &[u8]` parameter, `selfKey` is `self.key`, `found`
the result flag.  Returns `(found, self.key, cursor position)`; a non-empty
third component means the loop returned while positioned on its head. -/
def nextInner (T : Nat) (seekKey : List Nat) :
    List Nat → Bool → List MtEntry → Bool × List Nat × List MtEntry
  | selfKey, found, [] => (found, selfKey, [])
  | selfKey, found, e :: rest =>
    let found2 := found || (seekKey == e.uk && decide (e.ts ≤ T))
    let selfKey2 := if e.ts ≤ T ∧ e.v = none then e.uk else selfKey
    if e.ts ≤ T ∧ e.uk ≠ selfKey2 then (found2, e.uk, e :: rest)
    else nextInner T seekKey selfKey2 found2 rest

/-- The fused iteration: `seek(First)` followed by `next()` until invalid,
collecting `(key(), value())` at every valid stop.  Structurally this is
`next_inner` with an emit at each return; `mtDrive_protocol`,
`nextInner_stop_shape` and `nextInner_skip_stop` below prove it reproduces the
`seek`/`next` protocol of the source.  `value()` strips the slot tag
(`&self.iter.value()[1..]`), modelled by `Option.getD []`. -/
def mtDrive (T : Nat) : List Nat → List MtEntry → List (List Nat × List Nat)
  | _, [] => []
  | selfKey, e :: rest =>
    let selfKey2 := if e.ts ≤ T ∧ e.v = none then e.uk else selfKey
    if e.ts ≤ T ∧ e.uk ≠ selfKey2 then (e.uk, e.v.getD []) :: mtDrive T e.uk rest
    else mtDrive T selfKey2 rest

/-- The key/value pairs yielded by a `MemtableIterator` over memtable `m` at
snapshot `T` after `seek(First)` and repeated `next()`: `seek(First)` clears
`self.key` (memtable_iterator.rs line 137) and starts at the first row. -/
def memtableYields (T : Nat) (m : List MtEntry) : List (List Nat × List Nat) :=
  mtDrive T [] m

/-- Statement of C3 in the claim's words: per user-key group (consecutive in the
sorted memtable), take the first version visible at `T` — the highest visible
timestamp, by the sort order — and yield its value unless it is a tombstone;
user keys with no visible version or a tombstone on top yield nothing. -/
def specYields (T : Nat) : List MtEntry → List (List Nat × List Nat)
  | [] => []
  | e :: rest =>
    let grp := e :: rest.takeWhile (fun x => x.uk == e.uk)
    let rest2 := rest.dropWhile (fun x => x.uk == e.uk)
    match grp.find? (fun x => decide (x.ts ≤ T)) with
    | some f =>
      match f.v with
      | some val => (e.uk, val) :: specYields T rest2
      | none => specYields T rest2
    | none => specYields T rest2
termination_by m => m.length
decreasing_by
  all_goals
    simp only [List.length_cons]
    exact Nat.lt_succ_of_le ((List.dropWhile_sublist _).length_le)

/-- The S1 scenario build: keys `"k01" "k02" "k04" "k05"`, timestamps 1 2 4 5,
values `"v01" "v02" "v04" "v05"`, `block_capacity = 32`. -/
def c7Result (hashFn : List Nat → Nat) (bloomFn : List Nat → List Nat) (bloomPositive : Bool) :
    (List BlockMeta × List Nat) × List Nat :=
  sstBuild bloomPositive bloomFn
    (sstAdd 32 hashFn
      (sstAdd 32 hashFn
        (sstAdd 32 hashFn
          (sstAdd 32 hashFn sstEmpty [107, 48, 49] 1 [118, 48, 49])
          [107, 48, 50] 2 [118, 48, 50])
        [107, 48, 52] 4 [118, 48, 52])
      [107, 48, 53] 5 [118, 48, 53])

/-- The memtable for the `memtable_iter_mvcc` witness: user key `[1]` has a
visible value under a newer one, user key `[2]` is tombstoned on top at `T = 3`,
user key `[3]` has one visible version. -/
def c3Mem : List MtEntry :=
  [⟨[1], 5, some [9]⟩, ⟨[1], 2, some [4]⟩, ⟨[2], 3, none⟩, ⟨[2], 1, some [8]⟩,
   ⟨[3], 2, some [5]⟩]

/-! Theorems: claim statements, counterexamples, witnesses and supporting lemmas. -/

theorem lexLt_self (l : List Nat) : lexLt l l = false := by
  induction l with
  | nil => rfl
  | cons a as ih => simp [lexLt, ih]

theorem lexLt_trans : ∀ {a b c : List Nat},
    lexLt a b = true → lexLt b c = true → lexLt a c = true := by
  intro a
  induction a with
  | nil =>
    intro b c hab hbc
    cases b with
    | nil => simp [lexLt] at hab
    | cons y ys =>
      cases c with
      | nil => simp [lexLt] at hbc
      | cons z zs => simp [lexLt]
  | cons x xs ih =>
    intro b c hab hbc
    cases b with
    | nil => simp [lexLt] at hab
    | cons y ys =>
      cases c with
      | nil => simp [lexLt] at hbc
      | cons z zs =>
        simp only [lexLt, Bool.or_eq_true, decide_eq_true_eq, Bool.and_eq_true,
          beq_iff_eq] at hab hbc ⊢
        rcases hab with h1 | ⟨h1, h1'⟩ <;> rcases hbc with h2 | ⟨h2, h2'⟩
        · exact Or.inl (h1.trans h2)
        · exact Or.inl (h2 ▸ h1)
        · exact Or.inl (h1 ▸ h2)
        · exact Or.inr ⟨h1.trans h2, ih h1' h2'⟩

theorem leBytes8_invTs_small {ts : Nat} (h : ts < 256) :
    leBytes8 (invTs ts) = (255 - ts) :: List.replicate 7 255 := by
  simp only [leBytes8, invTs, List.replicate]
  norm_num
  omega

theorem lexLt_append_eqlen :
    ∀ {as bs : List Nat} (cs ds : List Nat), as.length = bs.length →
      lexLt (as ++ cs) (bs ++ ds) = (lexLt as bs || (as == bs && lexLt cs ds)) := by
  intro as
  induction as with
  | nil =>
    intro bs cs ds hlen
    cases bs with
    | nil => simp [lexLt]
    | cons b bs => simp at hlen
  | cons a as ih =>
    intro bs cs ds hlen
    cases bs with
    | nil => simp at hlen
    | cons b bs =>
      simp only [List.length_cons, Nat.add_right_cancel_iff] at hlen
      simp only [List.cons_append, lexLt, List.append_eq, ih cs ds hlen, List.cons_beq_cons]
      cases decide (a < b) <;> cases h : a == b <;>
        cases lexLt as bs <;> cases h2 : as == bs <;> cases lexLt cs ds <;> simp

theorem lexLt_invTail {ts1 ts2 : Nat} (h1 : ts1 < 256) (h2 : ts2 < 256) :
    lexLt ((255 - ts1) :: List.replicate 7 255) ((255 - ts2) :: List.replicate 7 255)
      = decide (ts2 < ts1) := by
  show (decide (255 - ts1 < 255 - ts2)
      || ((255 - ts1 == 255 - ts2) && lexLt (List.replicate 7 255) (List.replicate 7 255)))
      = decide (ts2 < ts1)
  rw [lexLt_self, Bool.and_false, Bool.or_false, decide_eq_decide]
  omega

/-- C2 (counterexample): the claimed order equivalence for `full_key` fails on the
code as stated.  Two independent failures, each at explicit concrete inputs:

1. Prefix user keys: `uk1 = [0x61]` is lexicographically smaller than
   `uk2 = [0x61, 0x00]`, so the claim demands `full_key uk1 0 < full_key uk2 0`,
   but the complemented-timestamp suffix `0xff...` of the shorter key compares
   above the `0x00` continuation of the longer key.
2. Little-endian timestamps: with equal (empty) user keys and `ts1 = 256 > ts2 = 1`
   the claim demands `full_key [] 256 < full_key [] 1`, but `put_u64_le` stores the
   complemented timestamp little-endian, so the low byte (`0xff` vs `0xfe`)
   dominates and the comparison comes out the other way. -/
theorem full_key_order_counterexample :
    (lexLt [97] [97, 0] = true ∧ lexLt (full_key [97] 0) (full_key [97, 0] 0) = false)
    ∧ ((256 : Nat) > 1 ∧ lexLt (full_key [] 256) (full_key [] 1) = false) := by
  refine ⟨⟨by decide, ?_⟩, by decide, ?_⟩ <;> decide

/-- C2 (amended): for user keys of equal length and timestamps below 256, the
lexicographic byte order on `full_key` outputs coincides with
(user-key ascending, timestamp descending). -/
theorem full_key_order (uk1 uk2 : List Nat) (ts1 ts2 : Nat)
    (hlen : uk1.length = uk2.length) (h1 : ts1 < 256) (h2 : ts2 < 256) :
    lexLt (full_key uk1 ts1) (full_key uk2 ts2)
      = (lexLt uk1 uk2 || (uk1 == uk2 && decide (ts1 > ts2))) := by
  unfold full_key
  rw [leBytes8_invTs_small h1, leBytes8_invTs_small h2, lexLt_append_eqlen _ _ hlen,
    lexLt_invTail h1 h2]

/-- Witness for `full_key_order` at concrete inputs (`"k01"`/`"k02"`, timestamps 1, 2). -/
theorem full_key_order_witness :
    ([107, 48, 49] : List Nat).length = [107, 48, 50].length ∧ (1 : Nat) < 256 ∧ (2 : Nat) < 256
    ∧ lexLt (full_key [107, 48, 49] 1) (full_key [107, 48, 50] 2)
      = (lexLt [107, 48, 49] [107, 48, 50]
          || ([107, 48, 49] == [107, 48, 50] && decide ((1 : Nat) > 2))) :=
  ⟨rfl, by decide, by decide,
    full_key_order [107, 48, 49] [107, 48, 50] 1 2 rfl (by decide) (by decide)⟩


/-- C4: for a group whose state is non-empty and any batch, `append` with
`first_index > state_next_index` fails with `RaftLogGap{start = state_next_index,
end = first_index}`.  The model is pure, so returning the error leaves the
group's `first_index`, `indices`, `mask_index` and kv map unchanged by
construction (mem.rs returns before any mutation on this path). -/
theorem memAppend_gap (s : MemState) (firstIndex : Nat) (batch : List EntryIndex)
    (hne : s.first_index + s.indices.length ≠ 0)
    (_hb : batch ≠ [])
    (hgap : s.first_index + s.indices.length < firstIndex) :
    memAppend s firstIndex batch
      = .error (.raftLogGap (s.first_index + s.indices.length) firstIndex) := by
  unfold memAppend
  simp [hne, hgap]

/-- Witness for `memAppend_gap`: the S5 scenario.  On an initially empty group,
`append(1, 100 indices)` then `append(102, 100 indices)` yields
`RaftLogGap{start = 101, end = 102}`. -/
theorem memAppend_gap_witness :
    memAppend memStateEmpty 1 (genIndices 1 100) = .ok s5State
    ∧ s5State.first_index + s5State.indices.length ≠ 0
    ∧ genIndices 1 100 ≠ []
    ∧ s5State.first_index + s5State.indices.length < 102
    ∧ memAppend s5State 102 (genIndices 1 100) = .error (.raftLogGap 101 102) :=
  ⟨by decide, by decide, by decide, by decide,
    memAppend_gap s5State 102 (genIndices 1 100) (by decide) (by decide) (by decide)⟩


/-- C6: `compact` is idempotent, and a second `compact` at any smaller-or-equal
index is a no-op; this covers all three branches of `MemStates::compact`. -/
theorem memCompact_idempotent (s : MemState) (i j : Nat) (hji : j ≤ i) :
    memCompact (memCompact s i) i = memCompact s i
    ∧ memCompact (memCompact s i) j = memCompact s i := by
  by_cases h1 : i ≤ s.first_index
  · have e1 : memCompact s i = s := by simp [memCompact, h1]
    rw [e1]
    exact ⟨e1, by simp [memCompact, Nat.le_trans hji h1]⟩
  · by_cases h2 : s.first_index + s.indices.length < i
    · have e1 : memCompact s i = { s with indices := [], first_index := 0 } := by
        rw [memCompact, if_neg h1, if_pos h2]
      have hi : 0 < i := by omega
      rw [e1]
      constructor
      · rw [memCompact]
        rw [if_neg (by simp; omega), if_pos (by simp; omega)]
      · rcases Nat.eq_zero_or_pos j with hj | hj
        · rw [memCompact, if_pos (by simp [hj])]
        · rw [memCompact]
          rw [if_neg (by simp; omega), if_pos (by simp; omega)]
    · have e1 : memCompact s i
          = { s with indices := s.indices.drop (i - s.first_index), first_index := i } := by
        rw [memCompact, if_neg h1, if_neg h2]
      rw [e1]
      constructor
      · rw [memCompact, if_pos (by simp)]
      · rw [memCompact, if_pos (by simpa using hji)]

/-- Witness for `memCompact_idempotent` at a concrete state and indices. -/
theorem memCompact_idempotent_witness :
    (3 : Nat) ≤ 5
    ∧ memCompact (memCompact s5State 5) 5 = memCompact s5State 5
    ∧ memCompact (memCompact s5State 5) 3 = memCompact s5State 5 :=
  ⟨by decide, (memCompact_idempotent s5State 5 3 (by decide)).1,
    (memCompact_idempotent s5State 5 3 (by decide)).2⟩


/-- C10: `mask(index)` with `index ≤ first_index + indices.len()` only sets
`mask_index`, leaving `first_index`, `indices` and the kv map untouched; with a
larger `index` it clears the indices and resets both `first_index` and
`mask_index` to 0. -/
theorem memMask_spec (s : MemState) (index : Nat) :
    memMask s index
      = if index ≤ s.first_index + s.indices.length
        then { s with mask_index := index }
        else { s with indices := [], first_index := 0, mask_index := 0 } := by
  rcases le_or_lt index (s.first_index + s.indices.length) with h | h
  · rw [memMask, if_neg (by omega), if_pos h]
  · rw [memMask, if_pos h, if_neg (by omega)]


/-- C8 (refuting the claim; the code is the slip): at `entries(group, 2, usize::MAX)`
on a group with `first_index = 1` and two entries, `start = 1` and
`start + max_len` overflows `usize` (second conjunct), wrapping to `0 < start`,
so the slice `&indices[start..end]` panics (modelled by `.ok none`) instead of
returning the claimed window — which exact arithmetic would make `[start, len)`,
i.e. the second entry (third conjunct). -/
theorem memEntries_overflow :
    memEntries c8State 2 u64MAX = .ok none
    ∧ 2 ^ 64 ≤ (2 - c8State.first_index) + u64MAX
    ∧ (c8State.indices.drop 1).take (min ((2 - c8State.first_index) + u64MAX) c8State.indices.length - 1)
      = genIndices 1 1 := by
  refine ⟨by decide, by decide, by decide⟩


/-- C9: after `remove_group(g)` succeeds the group is still present, with
`first_index = u64::MAX` and cleared indices and kv map; a subsequent
`add_group(g)` fails with `GroupAlreadyExists`, and `term`/`ctx` return
`Ok(None)` for every index. -/
theorem removeGroup_keeps_group (m : GroupMap) (g : Nat) (s : MemState)
    (h : m g = some s) :
    removeGroup m g
      = .ok (m.insert g { s with first_index := u64MAX, indices := [], kvs := [] })
    ∧ (m.insert g { s with first_index := u64MAX, indices := [], kvs := [] }) g
      = some { s with first_index := u64MAX, indices := [], kvs := [] }
    ∧ addGroup (m.insert g { s with first_index := u64MAX, indices := [], kvs := [] }) g
      = .error (.groupAlreadyExists g)
    ∧ ∀ i, statesTerm (m.insert g { s with first_index := u64MAX, indices := [], kvs := [] }) g i
        = .ok none
      ∧ statesCtx (m.insert g { s with first_index := u64MAX, indices := [], kvs := [] }) g i
        = .ok none := by
  have hl : (m.insert g { s with first_index := u64MAX, indices := [], kvs := [] }) g
      = some { s with first_index := u64MAX, indices := [], kvs := [] } := by
    simp [GroupMap.insert]
  refine ⟨by rw [removeGroup, h], hl, by rw [addGroup, hl], fun i => ⟨?_, ?_⟩⟩
  · rw [statesTerm, hl]
    simp only []
    rw [if_pos (by simp [u64MAX]; omega)]
  · rw [statesCtx, hl]
    simp only []
    rw [if_pos (by simp [u64MAX]; omega)]

/-- Witness for `removeGroup_keeps_group` on a concrete one-group map. -/
theorem removeGroup_keeps_group_witness :
    rmMap 1 = some s5State
    ∧ removeGroup rmMap 1
      = .ok (rmMap.insert 1 { s5State with first_index := u64MAX, indices := [], kvs := [] })
    ∧ addGroup (rmMap.insert 1 { s5State with first_index := u64MAX, indices := [], kvs := [] }) 1
      = .error (.groupAlreadyExists 1)
    ∧ statesTerm (rmMap.insert 1 { s5State with first_index := u64MAX, indices := [], kvs := [] }) 1 7
      = .ok none :=
  ⟨rfl, (removeGroup_keeps_group rmMap 1 s5State rfl).1,
    (removeGroup_keeps_group rmMap 1 s5State rfl).2.2.1,
    ((removeGroup_keeps_group rmMap 1 s5State rfl).2.2.2 7).1⟩


theorem zipWith_append_left (f : EntryIndex → EntryIndex → EntryIndex) :
    ∀ (a c b : List EntryIndex), c.length ≤ a.length →
      List.zipWith f (a ++ b) c = List.zipWith f a c := by
  intro a
  induction a with
  | nil =>
    intro c b h
    have : c = [] := List.length_eq_zero.mp (Nat.le_zero.mp h)
    subst this
    simp
  | cons x xs ih =>
    intro c b h
    cases c with
    | nil => simp
    | cons y ys =>
      simp only [List.cons_append, List.zipWith_cons_cons]
      rw [ih ys b (by simpa using h)]

theorem zipWith_take_right (f : EntryIndex → EntryIndex → EntryIndex) :
    ∀ (a b : List EntryIndex), List.zipWith f a (b.take a.length) = List.zipWith f a b := by
  intro a
  induction a with
  | nil => intro b; simp
  | cons x xs ih =>
    intro b
    cases b with
    | nil => simp
    | cons y ys => simp [List.zipWith_cons_cons, ih ys]

theorem updateAt_length (st : List EntryIndex) (i : Nat) (e : EntryIndex) :
    (updateAt st i e).length = st.length := by
  unfold updateAt
  cases st.get? i with
  | none => rfl
  | some stored =>
    simp only []
    split <;> simp

theorem updateAt_eq (st : List EntryIndex) (i : Nat) (e : EntryIndex) (h : i < st.length) :
    updateAt st i e = st.take i ++ chooseIndex (st.get ⟨i, h⟩) e :: st.drop (i + 1) := by
  have hu : updateAt st i e = if e.term < (st.get ⟨i, h⟩).term then st else st.set i e := by
    unfold updateAt
    rw [List.get?_eq_get h]
  rw [hu]
  by_cases hterm : e.term < (st.get ⟨i, h⟩).term
  · rw [if_pos hterm]
    rw [chooseIndex, if_pos hterm]
    conv_lhs => rw [← List.take_append_drop i st]
    rw [List.drop_eq_getElem_cons h]
    rfl
  · rw [if_neg hterm]
    rw [chooseIndex, if_neg hterm]
    rw [List.set_eq_take_append_cons_drop, if_pos h]

theorem overwriteLoop_eq :
    ∀ (inc st : List EntryIndex) (start : Nat), start + inc.length ≤ st.length →
      overwriteLoop st start inc
        = st.take start ++ List.zipWith chooseIndex (st.drop start) inc
          ++ (st.drop start).drop inc.length := by
  intro inc
  induction inc with
  | nil =>
    intro st start h
    simp [overwriteLoop, List.take_append_drop]
  | cons e rest ih =>
    intro st start h
    have hlt : start < st.length := by simp at h; omega
    have hA : (st.take start).length = start := by simp [List.length_take]; omega
    have hst : updateAt st start e
        = st.take start ++ chooseIndex (st.get ⟨start, hlt⟩) e :: st.drop (start + 1) :=
      updateAt_eq st start e hlt
    have hlen : (updateAt st start e).length = st.length := updateAt_length st start e
    have hbound : (start + 1) + rest.length ≤ (updateAt st start e).length := by
      rw [hlen]; simp at h ⊢; omega
    show overwriteLoop (updateAt st start e) (start + 1) rest = _
    rw [ih (updateAt st start e) (start + 1) hbound, hst]
    have htake : (st.take start ++ chooseIndex (st.get ⟨start, hlt⟩) e :: st.drop (start + 1)).take (start + 1)
        = st.take start ++ [chooseIndex (st.get ⟨start, hlt⟩) e] := by
      rw [show start + 1 = (st.take start).length + 1 by rw [hA]]
      rw [List.take_append 1]
      rfl
    have hdrop : (st.take start ++ chooseIndex (st.get ⟨start, hlt⟩) e :: st.drop (start + 1)).drop (start + 1)
        = st.drop (start + 1) := by
      rw [show start + 1 = (st.take start).length + 1 by rw [hA]]
      rw [List.drop_append 1]
      rfl
    rw [htake, hdrop]
    have hz : List.zipWith chooseIndex (st.drop start) (e :: rest)
        = chooseIndex (st.get ⟨start, hlt⟩) e
          :: List.zipWith chooseIndex (st.drop (start + 1)) rest := by
      rw [List.drop_eq_getElem_cons hlt]
      rfl
    have hd : (st.drop start).drop (e :: rest).length
        = (st.drop (start + 1)).drop rest.length := by
      rw [List.drop_eq_getElem_cons hlt]
      rw [show (e :: rest).length = rest.length + 1 from rfl]
      rw [List.drop_succ_cons]
    rw [hz, hd]
    simp [List.append_assoc]

theorem appendRest_eq (s : MemState) (fi : Nat) (b : List EntryIndex)
    (h1 : s.first_index ≤ fi) (h2 : fi ≤ s.first_index + s.indices.length) :
    appendRest s (s.first_index + s.indices.length) fi b
      = { s with indices :=
            s.indices.take (fi - s.first_index)
            ++ List.zipWith chooseIndex (s.indices.drop (fi - s.first_index)) b
            ++ (s.indices.drop (fi - s.first_index)).drop b.length
            ++ b.drop (s.indices.length - (fi - s.first_index)) } := by
  have hov : fi - s.first_index ≤ s.indices.length := by omega
  have hK : (s.indices.drop (fi - s.first_index)).length
      = s.indices.length - (fi - s.first_index) := by simp
  unfold appendRest
  by_cases hc : s.first_index + s.indices.length - fi < b.length
  · rw [if_pos hc]
    have hKb : s.first_index + s.indices.length - fi ≤ b.length := Nat.le_of_lt hc
    have hKval : s.first_index + s.indices.length - fi
        = s.indices.length - (fi - s.first_index) := by omega
    have htakelen : (b.take (s.first_index + s.indices.length - fi)).length
        = s.first_index + s.indices.length - fi := by
      simp [List.length_take]; omega
    have hbound : (fi - s.first_index) + (b.take (s.first_index + s.indices.length - fi)).length
        ≤ (s.indices ++ b.drop (s.first_index + s.indices.length - fi)).length := by
      rw [htakelen]; simp; omega
    rw [overwriteLoop_eq _ _ _ hbound]
    congr 1
    rw [List.take_append_of_le_length hov, List.drop_append_of_le_length hov, htakelen]
    rw [zipWith_append_left chooseIndex (s.indices.drop (fi - s.first_index))
      (b.take (s.first_index + s.indices.length - fi))
      (b.drop (s.first_index + s.indices.length - fi)) (by rw [htakelen, hK]; omega)]
    have hzt := zipWith_take_right chooseIndex (s.indices.drop (fi - s.first_index)) b
    rw [hK, ← hKval] at hzt
    rw [hzt]
    rw [List.drop_append_of_le_length (by rw [hK]; omega)]
    rw [show (s.indices.drop (fi - s.first_index)).drop (s.first_index + s.indices.length - fi)
        = [] from List.drop_eq_nil_of_le (by rw [hK]; omega)]
    rw [show (s.indices.drop (fi - s.first_index)).drop b.length
        = [] from List.drop_eq_nil_of_le (by rw [hK]; omega)]
    rw [← hKval]
    simp [List.append_assoc]
  · rw [if_neg hc]
    have hKb : b.length ≤ s.first_index + s.indices.length - fi := Nat.le_of_not_lt hc
    have hbound : (fi - s.first_index) + b.length ≤ s.indices.length := by omega
    rw [overwriteLoop_eq _ _ _ hbound]
    congr 1
    rw [show b.drop (s.indices.length - (fi - s.first_index))
        = [] from List.drop_eq_nil_of_le (by omega)]
    simp

/-- C5: for an existing group and a batch with `first_index ≤ state_next_index`
(or an empty group, which accepts any `first_index`), `append` succeeds and
produces exactly the state described by the claim: leading outdated indices are
dropped (leaving the state untouched if that empties the batch), the overlap
region is merged index by index with the incoming entry winning iff its term is
`≥` the stored term, and the remainder is appended verbatim
(see `memAppendSpec`). -/
theorem memAppend_spec (s : MemState) (fi : Nat) (batch : List EntryIndex)
    (hfi : s.first_index + s.indices.length = 0 ∨ fi ≤ s.first_index + s.indices.length) :
    memAppend s fi batch = .ok (memAppendSpec s fi batch) := by
  by_cases h0 : s.first_index + s.indices.length = 0
  · obtain ⟨f, mask, idx, kvs⟩ := s
    simp only at h0
    have hf0 : f = 0 := by omega
    have hi0 : idx = [] := List.length_eq_zero.mp (by omega)
    subst hf0 hi0
    cases batch with
    | nil => simp [memAppend, memAppendSpec, appendRest, overwriteLoop]
    | cons x xs =>
      simp [memAppend, memAppendSpec, appendRest, overwriteLoop]
  · rcases hfi with hfi | hfi
    · exact absurd hfi h0
    unfold memAppend memAppendSpec
    rw [if_neg (by simp; omega)]
    simp only [if_neg h0]
    by_cases hlt : fi < s.first_index
    · rw [if_pos hlt]
      have hmax : max fi s.first_index - s.first_index = 0 := by omega
      by_cases hbe : (batch.drop (s.first_index - fi)).isEmpty
      · rw [if_pos hbe]
        have hnil : batch.drop (s.first_index - fi) = [] := by
          simpa [List.isEmpty_iff] using hbe
        rw [hnil, hmax]
        simp
      · rw [if_neg hbe]
        rw [appendRest_eq _ _ _ (le_refl _) (by omega)]
        rw [hmax, Nat.sub_self]
        simp
    · rw [if_neg hlt]
      have hge : s.first_index ≤ fi := by omega
      have hmax : max fi s.first_index = fi := by omega
      rw [appendRest_eq _ _ _ hge hfi]
      rw [Nat.sub_eq_zero_of_le hge, hmax]
      simp

set_option maxRecDepth 4000 in
/-- Witness for `memAppend_spec`: the overlapping re-append from the repository's
own test (`append(301, 100 term-3 indices)` onto range `[251, 351)` of term-2
indices): the 50-index overlap is overwritten (3 ≥ 2) and the rest appended
verbatim, giving `gen(2, 50) ++ gen(3, 100)`. -/
theorem memAppend_spec_witness :
    ((251 : Nat) + (genIndices 2 100).length = 0 ∨ 301 ≤ 251 + (genIndices 2 100).length)
    ∧ memAppend ⟨251, 0, genIndices 2 100, []⟩ 301 (genIndices 3 100)
      = .ok (memAppendSpec ⟨251, 0, genIndices 2 100, []⟩ 301 (genIndices 3 100))
    ∧ memAppendSpec ⟨251, 0, genIndices 2 100, []⟩ 301 (genIndices 3 100)
      = ⟨251, 0, genIndices 2 50 ++ genIndices 3 100, []⟩ :=
  ⟨Or.inr (by decide),
    memAppend_spec ⟨251, 0, genIndices 2 100, []⟩ 301 (genIndices 3 100) (Or.inr (by decide)),
    by decide⟩


/-- C1 (refuting the claim; the code is the slip): `RaftLogStore::entry` keys the
raft block cache with `(file_id, offset)` instead of `(file_id, block_offset)`.
At the concrete entries above: `c1E1` and `c1E2` live in different blocks
(`block_offset` 0 vs 512) yet share one cache key, so after reading `c1E1`,
reading `c1E2` returns a slice of the wrong (cached) block — 1-bytes instead of
the 2-bytes its own block holds; and `c1E1`/`c1E3` share a block yet get distinct
cache keys.  This contradicts the claimed keying, under which same-block entries
share one cache entry and different-block entries never do. -/
theorem entryCacheKey_bug :
    entryCacheKey c1E1 = entryCacheKey c1E2
    ∧ c1E1.block_offset ≠ c1E2.block_offset
    ∧ c1E1.block_offset = c1E3.block_offset
    ∧ entryCacheKey c1E1 ≠ entryCacheKey c1E3
    ∧ (storeEntry c1Log (storeEntry c1Log [] c1E1).2 c1E2).1 = List.replicate 4 1
    ∧ ((c1Log c1E2.file_id c1E2.block_offset c1E2.block_len).drop c1E2.offset).take c1E2.len
      = List.replicate 4 2 := by
  refine ⟨by decide, by decide, by decide, by decide, by decide, by decide⟩


set_option maxRecDepth 8000 in
/-- C7: building the S1 sstable (four keys, `block_capacity = 32`) produces exactly
2 block metas, with `block_metas[0].first_key = full_key("k01", 1)` and
`block_metas[1].last_key = full_key("k05", 5)`, and the data bytes end with the
little-endian `u32` block count 2 — for every choice of user-key hash function
and bloom-filter builder. -/
theorem sstable_build_scenario (hashFn : List Nat → Nat) (bloomFn : List Nat → List Nat)
    (bloomPositive : Bool) :
    (c7Result hashFn bloomFn bloomPositive).1.1.length = 2
    ∧ ((c7Result hashFn bloomFn bloomPositive).1.1.map BlockMeta.first_key).get? 0
      = some (full_key [107, 48, 49] 1)
    ∧ ((c7Result hashFn bloomFn bloomPositive).1.1.map BlockMeta.last_key).get? 1
      = some (full_key [107, 48, 53] 5)
    ∧ (c7Result hashFn bloomFn bloomPositive).2.drop
        ((c7Result hashFn bloomFn bloomPositive).2.length - 4) = [2, 0, 0, 0] :=
  ⟨rfl, rfl, rfl, by
    have h : (c7Result hashFn bloomFn bloomPositive).2
        = (c7Result (fun _ => 0) (fun _ => []) false).2 := rfl
    rw [h]
    rfl⟩


theorem nextInner_found_indep (T : Nat) (sk : List Nat) :
    ∀ (l : List MtEntry) (k : List Nat) (f f' : Bool),
      (nextInner T sk k f l).2 = (nextInner T sk k f' l).2 := by
  intro l
  induction l with
  | nil => intro k f f'; rfl
  | cons e rest ih =>
    intro k f f'
    simp only [nextInner]
    by_cases hstop : e.ts ≤ T ∧ e.uk ≠ (if e.ts ≤ T ∧ e.v = none then e.uk else k)
    · rw [if_pos hstop, if_pos hstop]
    · rw [if_neg hstop, if_neg hstop]
      exact ih _ _ _

/-- Every stop of `next_inner` is at a row that is visible, not a tombstone, and
whose user key is the new `self.key`. -/
theorem nextInner_stop_shape (T : Nat) (sk : List Nat) :
    ∀ (l : List MtEntry) (k : List Nat) (f f2 : Bool) (k2 : List Nat) (e : MtEntry)
      (rest : List MtEntry),
      nextInner T sk k f l = (f2, k2, e :: rest) →
      e.ts ≤ T ∧ e.v ≠ none ∧ k2 = e.uk := by
  intro l
  induction l with
  | nil =>
    intro k f f2 k2 e rest h
    simp [nextInner] at h
  | cons x xs ih =>
    intro k f f2 k2 e rest h
    simp only [nextInner] at h
    by_cases hstop : x.ts ≤ T ∧ x.uk ≠ (if x.ts ≤ T ∧ x.v = none then x.uk else k)
    · rw [if_pos hstop] at h
      injection h with h1 h23
      injection h23 with h2 h3
      injection h3 with he hrest
      subst he
      subst h2
      refine ⟨hstop.1, ?_, rfl⟩
      intro hv
      have h4 := hstop.2
      rw [if_pos ⟨hstop.1, hv⟩] at h4
      exact h4 rfl
    · rw [if_neg hstop] at h
      exact ih _ _ _ _ _ _ h

/-- After a stop at row `e` (so `self.key = e.uk`), the `next()` call runs
`next_inner` from `e` itself and skips exactly `e`: its state effect equals
running `next_inner` from the rest of the cursor. -/
theorem nextInner_skip_stop (T : Nat) (e : MtEntry) (rest : List MtEntry) (f : Bool)
    (_hts : e.ts ≤ T) (hv : e.v ≠ none) :
    (nextInner T [] e.uk f (e :: rest)).2 = (nextInner T [] e.uk f rest).2 := by
  simp only [nextInner]
  rw [if_neg (fun hc => absurd hc.2 (by rw [if_neg (fun hvt => hv hvt.2)]; simp))]
  rw [if_neg (fun hvt : e.ts ≤ T ∧ e.v = none => hv hvt.2)]
  exact nextInner_found_indep T [] rest e.uk _ f

/-- The fused drive agrees with the `seek`/`next` protocol step by step: run
`next_inner`; if the cursor died, stop; otherwise yield the stop row and
continue with `self.key` set to its user key (continuing past the stop row is
justified by `nextInner_skip_stop` and `nextInner_stop_shape`). -/
theorem mtDrive_protocol (T : Nat) :
    ∀ (l : List MtEntry) (k : List Nat),
      mtDrive T k l
        = match (nextInner T [] k false l).2 with
          | (_, []) => []
          | (k2, e :: rest) => (e.uk, e.v.getD []) :: mtDrive T k2 rest := by
  intro l
  induction l with
  | nil => intro k; rfl
  | cons e rest ih =>
    intro k
    simp only [mtDrive, nextInner]
    by_cases hstop : e.ts ≤ T ∧ e.uk ≠ (if e.ts ≤ T ∧ e.v = none then e.uk else k)
    · rw [if_pos hstop, if_pos hstop]
    · rw [if_neg hstop, if_neg hstop]
      rw [ih _]
      rw [nextInner_found_indep T [] rest
        (if e.ts ≤ T ∧ e.v = none then e.uk else k)
        (false || (([] : List Nat) == e.uk && decide (e.ts ≤ T))) false]

/-- Rows whose user key equals `self.key` are skipped without changing state. -/
theorem mtDrive_skip_same (T : Nat) (u : List Nat) :
    ∀ (g : List MtEntry), (∀ x ∈ g, x.uk = u) →
      ∀ r, mtDrive T u (g ++ r) = mtDrive T u r := by
  intro g
  induction g with
  | nil => intro _ r; rfl
  | cons x g' ih =>
    intro hg r
    have hx : x.uk = u := hg x (by simp)
    simp only [List.cons_append, mtDrive]
    rw [show (if x.ts ≤ T ∧ x.v = none then x.uk else u) = u by split <;> simp [hx]]
    rw [if_neg (fun hc => hc.2 hx)]
    exact ih (fun y hy => hg y (by simp [hy])) r

/-- Driving through one user-key group `g` (all rows keyed `u`, with
`self.key = k ≠ u`): the first visible row decides everything — absent, the
group is passed over with `self.key` unchanged; a tombstone marks the group
consumed; a value is yielded.  Either way the rest of the group is skipped. -/
theorem mtDrive_group (T : Nat) (u k : List Nat) (hne : u ≠ k) :
    ∀ (g : List MtEntry), (∀ x ∈ g, x.uk = u) → ∀ r,
      mtDrive T k (g ++ r)
        = match g.find? (fun x => decide (x.ts ≤ T)) with
          | none => mtDrive T k r
          | some f =>
            match f.v with
            | some val => (u, val) :: mtDrive T u r
            | none => mtDrive T u r := by
  intro g
  induction g with
  | nil => intro _ r; rfl
  | cons x g' ih =>
    intro hg r
    have hx : x.uk = u := hg x (by simp)
    have hg' : ∀ y ∈ g', y.uk = u := fun y hy => hg y (by simp [hy])
    simp only [List.cons_append, mtDrive, List.append_eq]
    by_cases hvis : x.ts ≤ T
    · by_cases htomb : x.v = none
      · rw [show (if x.ts ≤ T ∧ x.v = none then x.uk else k) = u by
          rw [if_pos ⟨hvis, htomb⟩, hx]]
        rw [if_neg (fun hc => hc.2 hx)]
        rw [mtDrive_skip_same T u g' hg' r]
        rw [List.find?_cons_of_pos _ (by simp [hvis])]
        simp [htomb]
      · rw [show (if x.ts ≤ T ∧ x.v = none then x.uk else k) = k by
          rw [if_neg (fun hc => htomb hc.2)]]
        rw [if_pos ⟨hvis, by rw [hx]; exact hne⟩, hx]
        rw [mtDrive_skip_same T u g' hg' r]
        rw [List.find?_cons_of_pos _ (by simp [hvis])]
        cases hxv : x.v with
        | none => exact absurd hxv htomb
        | some val => simp [hxv]
    · rw [show (if x.ts ≤ T ∧ x.v = none then x.uk else k) = k by
        rw [if_neg (fun hc => hvis hc.1)]]
      rw [if_neg (fun hc => hvis hc.1)]
      rw [List.find?_cons_of_neg _ (by simp [hvis])]
      exact ih hg' r

/-- In a sorted memtable, every row past the leading group of `e`'s user key has
a different user key. -/
theorem pairwise_dropWhile_ne (e : MtEntry) :
    ∀ (l : List MtEntry),
      List.Pairwise (fun a b => entryLtB a b = true) (e :: l) →
      ∀ x ∈ l.dropWhile (fun y => y.uk == e.uk), x.uk ≠ e.uk := by
  intro l
  induction l with
  | nil => intro _ x hx; simp at hx
  | cons y l' ih =>
    intro hpw x hx
    have hey : entryLtB e y = true := (List.pairwise_cons.mp hpw).1 y (by simp)
    have heL : ∀ z ∈ l', entryLtB e z = true :=
      fun z hz => (List.pairwise_cons.mp hpw).1 z (by simp [hz])
    have hpw2 := (List.pairwise_cons.mp hpw).2
    have hyL : ∀ z ∈ l', entryLtB y z = true := (List.pairwise_cons.mp hpw2).1
    have hpwl' := (List.pairwise_cons.mp hpw2).2
    by_cases hyp : y.uk == e.uk
    · simp only [List.dropWhile_cons, hyp, if_true] at hx
      exact ih (List.pairwise_cons.mpr ⟨heL, hpwl'⟩) x hx
    · have hyp' : (y.uk == e.uk) = false := by simpa using hyp
      simp only [List.dropWhile_cons, hyp', Bool.false_eq_true, if_false] at hx
      have huk_ye : y.uk ≠ e.uk := by simpa using hyp
      rcases List.mem_cons.mp hx with rfl | hx'
      · exact huk_ye
      · have hlex_ey : lexLt e.uk y.uk = true := by
          simp only [entryLtB, Bool.or_eq_true, Bool.and_eq_true, beq_iff_eq] at hey
          rcases hey with h | ⟨h, _⟩
          · exact h
          · exact absurd h.symm huk_ye
        have hlex_ex : lexLt e.uk x.uk = true := by
          have hyx := hyL x hx'
          simp only [entryLtB, Bool.or_eq_true, Bool.and_eq_true, beq_iff_eq] at hyx
          rcases hyx with h | ⟨h, _⟩
          · exact lexLt_trans hlex_ey h
          · exact h ▸ hlex_ey
        intro hxe
        rw [hxe, lexLt_self] at hlex_ex
        exact Bool.noConfusion hlex_ex

/-- The generalized C3 induction: for a sorted memtable none of whose user keys
equals the current `self.key` sentinel, the iterator's yields equal the
per-user-key specification. -/
theorem mtDrive_spec_aux (T : Nat) :
    ∀ (n : Nat) (m : List MtEntry) (k : List Nat), m.length ≤ n →
      List.Pairwise (fun a b => entryLtB a b = true) m →
      (∀ x ∈ m, x.uk ≠ k) →
      mtDrive T k m = specYields T m := by
  intro n
  induction n with
  | zero =>
    intro m k hlen _ _
    have hm : m = [] := List.length_eq_zero.mp (Nat.le_zero.mp hlen)
    subst hm
    simp only [specYields, mtDrive]
  | succ n ih =>
    intro m k hlen hpw hk
    cases m with
    | nil => simp only [specYields, mtDrive]
    | cons e rest =>
      have hg : ∀ x ∈ e :: rest.takeWhile (fun y => y.uk == e.uk), x.uk = e.uk := by
        intro x hx
        rcases List.mem_cons.mp hx with rfl | h
        · rfl
        · simpa using List.mem_takeWhile_imp h
      have hsplit : e :: rest
          = (e :: rest.takeWhile (fun y => y.uk == e.uk))
            ++ rest.dropWhile (fun y => y.uk == e.uk) := by
        rw [List.cons_append, List.takeWhile_append_dropWhile]
      have hkek : e.uk ≠ k := hk e (by simp)
      have hr2sub : List.Sublist (rest.dropWhile (fun y => y.uk == e.uk)) rest :=
        List.dropWhile_sublist _
      have hr2len : (rest.dropWhile (fun y => y.uk == e.uk)).length ≤ n := by
        have h1 := hr2sub.length_le
        simp only [List.length_cons] at hlen
        omega
      have hpw2 : List.Pairwise (fun a b => entryLtB a b = true)
          (rest.dropWhile (fun y => y.uk == e.uk)) :=
        ((List.pairwise_cons.mp hpw).2).sublist hr2sub
      have hne2 : ∀ x ∈ rest.dropWhile (fun y => y.uk == e.uk), x.uk ≠ e.uk :=
        pairwise_dropWhile_ne e rest hpw
      have hkr2 : ∀ x ∈ rest.dropWhile (fun y => y.uk == e.uk), x.uk ≠ k :=
        fun x hx => hk x (List.mem_cons_of_mem e (hr2sub.mem hx))
      conv_lhs => rw [hsplit]
      rw [mtDrive_group T e.uk k hkek (e :: rest.takeWhile (fun y => y.uk == e.uk)) hg
        (rest.dropWhile (fun y => y.uk == e.uk))]
      rw [specYields]
      cases hfind : (e :: rest.takeWhile (fun y => y.uk == e.uk)).find?
          (fun x => decide (x.ts ≤ T)) with
      | none => exact ih _ k hr2len hpw2 hkr2
      | some f =>
        cases hfv : f.v with
        | none =>
          simp only [hfv]
          exact ih _ e.uk hr2len hpw2 hne2
        | some val =>
          simp only [hfv]
          rw [ih _ e.uk hr2len hpw2 hne2]

/-- C3 (counterexample): as stated, the claim fails when a user key is the empty
byte string.  `seek(First)` clears `self.key`, so the iterator cannot tell the
empty user key apart from the "nothing emitted yet" sentinel: the single visible
non-tombstone row with user key `[]` is never yielded, though the claim demands
it.  The memtable is trivially sorted (one row). -/
theorem memtable_iter_counterexample :
    List.Pairwise (fun a b => entryLtB a b = true) [MtEntry.mk [] 0 (some [7])]
    ∧ memtableYields 0 [MtEntry.mk [] 0 (some [7])] = []
    ∧ specYields 0 [MtEntry.mk [] 0 (some [7])] = [([], [7])] := by
  refine ⟨by simp, by decide, ?_⟩
  rw [specYields]
  simp only [List.takeWhile_nil, List.dropWhile_nil]
  rw [specYields]
  decide

/-- C3 (amended): for every memtable (sorted by user key ascending, timestamp
descending, with distinct full keys) in which no user key is the empty byte
string, and every snapshot timestamp `T`, a `MemtableIterator` at `T` after
`seek(First)` and repeated `next()` yields exactly one entry per user key that
has a version with timestamp `≤ T` whose highest such version is not a
tombstone, in ascending user-key order, with the value of that highest visible
version; tombstoned-on-top user keys and versions above `T` are never yielded
(`specYields` states this per consecutive user-key group). -/
theorem memtable_iter_mvcc (T : Nat) (m : List MtEntry)
    (hsorted : List.Pairwise (fun a b => entryLtB a b = true) m)
    (hne : ∀ x ∈ m, x.uk ≠ ([] : List Nat)) :
    memtableYields T m = specYields T m :=
  mtDrive_spec_aux T m.length m [] (Nat.le_refl _) hsorted hne

/-- Witness for `memtable_iter_mvcc` at snapshot 3 over `c3Mem`: only
`([1], [4])` and `([3], [5])` are yielded. -/
theorem memtable_iter_mvcc_witness :
    List.Pairwise (fun a b => entryLtB a b = true) c3Mem
    ∧ (∀ x ∈ c3Mem, x.uk ≠ ([] : List Nat))
    ∧ memtableYields 3 c3Mem = specYields 3 c3Mem
    ∧ memtableYields 3 c3Mem = [([1], [4]), ([3], [5])] :=
  ⟨by decide, by decide, memtable_iter_mvcc 3 c3Mem (by decide) (by decide), by decide⟩

end RunKV
